import Mathlib

/-!
Verification of the order-of-magnitude expression algebra
(`src/ver_1_0/expressions.py`, `src/ver_1_0/estimates.py`,
`src/littlewood_paley.py`) against its specification.

The Python classes `Variable`, `Constant`, `Max`, `Min`, `Add`, `Mul`,
`Div`, `Power` become one closed inductive type; `Fraction` exponents and
constant values become `Rat`.  The structural-equality engine `defeq` and
the normalization engine `simp` are embedded below; the recursion of the
source is not structural (Python recurses on freshly built nodes), so both
take an explicit recursion bound (`fuel` for `simp`, a depth bound for
`defeq`); the bound is seeded so that it never runs out on terms of the
corresponding depth, and every theorem is stated either for all bounds or
at an explicitly sufficient one.
-/

/-- The Expression variant hierarchy of `expressions.py`.  Field types
follow the source: `Constant.value` is a (positive) number, `Power.exponent`
an exact rational. -/
inductive Expression : Type where
  | Variable (name : String)
  | Constant (value : Rat)
  | Max (operands : List Expression)
  | Min (operands : List Expression)
  | Add (summands : List Expression)
  | Mul (factors : List Expression)
  | Div (numerator denominator : Expression)
  | Power (base : Expression) (exponent : Rat)

namespace Expression

mutual

/-- Size of an expression tree; used only to seed the recursion-depth bound
of `defeq` (each `defeq` level descends one tree level, and `esize` strictly
dominates the depth). -/
def esize : Expression → Nat
  | .Variable _ => 1
  | .Constant _ => 1
  | .Max xs => esizeList xs + 1
  | .Min xs => esizeList xs + 1
  | .Add xs => esizeList xs + 1
  | .Mul xs => esizeList xs + 1
  | .Div n d => esize n + esize d + 1
  | .Power b _ => esize b + 1

/-- Total size of a list of expressions. -/
def esizeList : List Expression → Nat
  | [] => 0
  | x :: xs => esize x + esizeList xs

end

example : esize (.Power (.Variable "x") 2) = 2 := rfl
example : esize (.Max [.Variable "x", .Constant 1]) = 3 := rfl
example : ∀ n : String, esize (.Variable n) = 1 := fun _ => rfl

/-- Remove the first element of a list satisfying `p`, keeping the rest in
order; `none` when no element matches.  Helper for the greedy matching of
`set_defeq`. -/
def removeFirstBy (p : Expression → Bool) : List Expression → Option (List Expression)
  | [] => none
  | y :: ys =>
    if p y then some ys
    else
      match removeFirstBy p ys with
      | some rest => some (y :: rest)
      | none => none

/-- Modelled from the spec: `set_defeq` lives in the missing `type.py`; per
section 4.3 two collections are equivalent iff a bijection matching them
under `eq` exists, implemented (as the spec allows) by greedy removal,
rejecting any partial match and collections of unequal size. -/
def setDefeqBy (eq : Expression → Expression → Bool) : List Expression → List Expression → Bool
  | [], ys => ys.isEmpty
  | x :: xs, ys =>
    match removeFirstBy (eq x) ys with
    | some rest => setDefeqBy eq xs rest
    | none => false

/-- The structural-equality engine `defeq`, with an explicit bound on the
recursion depth (the source recursion descends one tree level per call, so
any bound dominating the depth of the first argument gives the source
behavior; `defeq` below seeds it with `esize`).  Branches follow the
per-class `defeq` methods of `expressions.py`: a `Constant` equals only a
`Constant` of the same value, composite variants compare operand
collections via `set_defeq` (`Div` and `Power` compare componentwise, and
`Power` also compares exponents), and different variants are never equal.
The `Variable` case is modelled from the spec (the base-class `defeq` of
the missing `type.py`): a leaf with no further structure, equal exactly to
a variable of the same name. -/
def defeqFuel : Nat → Expression → Expression → Bool
  | 0, _, _ => false
  | fuel + 1, a, b =>
    match a, b with
    | .Variable n, .Variable m => n == m
    | .Constant v, .Constant w => v == w
    | .Max xs, .Max ys => setDefeqBy (fun x y => defeqFuel fuel x y) xs ys
    | .Min xs, .Min ys => setDefeqBy (fun x y => defeqFuel fuel x y) xs ys
    | .Add xs, .Add ys => setDefeqBy (fun x y => defeqFuel fuel x y) xs ys
    | .Mul xs, .Mul ys => setDefeqBy (fun x y => defeqFuel fuel x y) xs ys
    | .Div n1 d1, .Div n2 d2 => defeqFuel fuel n1 n2 && defeqFuel fuel d1 d2
    | .Power b1 e1, .Power b2 e2 => defeqFuel fuel b1 b2 && e1 == e2
    | _, _ => false

/-- `a.defeq(b)`: structural equality of two expressions. -/
def defeq (a b : Expression) : Bool :=
  defeqFuel (esize a) a b

/-- `set_defeq(xs, ys)` of the missing `type.py`, at the top-level entry
point (each list element compared with a depth bound sufficient for it). -/
def set_defeq (xs ys : List Expression) : Bool :=
  setDefeqBy defeq xs ys

example : defeq (.Variable "x") (.Variable "x") = true := rfl
example : defeq (.Variable "x") (.Variable "y") = false := rfl
example : ∀ n m : String, defeq (.Variable n) (.Variable m) = (n == m) := fun _ _ => rfl
example : defeq (.Mul []) (.Constant 1) = false := rfl
example : defeq (.Max [.Variable "x", .Variable "y"]) (.Max [.Variable "y", .Variable "x"]) = true := rfl
example : defeq (.Max [.Variable "x"]) (.Max [.Variable "x", .Variable "x"]) = false := rfl
example : defeq (.Power (.Variable "x") 2) (.Power (.Variable "x") 2) = true := rfl
example : defeq (.Power (.Variable "x") 1) (.Variable "x") = false := rfl

/-- Exact rational addition, written through `mkRat` so that concrete
instances reduce definitionally (the library's `Rat.add` is deliberately
irreducible); `fracAdd_eq_add` below proves it is the same operation, so
the `Fraction` arithmetic of the source is modelled exactly. -/
def fracAdd (a b : Rat) : Rat :=
  mkRat (a.num * b.den + b.num * a.den) (a.den * b.den)

/-- Exact rational multiplication through `mkRat`; `fracMul_eq_mul` below
proves it equal to the library multiplication. -/
def fracMul (a b : Rat) : Rat :=
  mkRat (a.num * b.num) (a.den * b.den)

theorem fracAdd_eq_add (a b : Rat) : fracAdd a b = a + b :=
  (Rat.add_def' a b).symm

theorem fracMul_eq_mul (a b : Rat) : fracMul a b = a * b := by
  rw [Rat.mul_def, Rat.normalize_eq_mkRat]; rfl

/-- Modelled from the spec: `add_to` (a method supplied by the missing
`type.py`) inserts an expression into a collection deduplicated by
structural equality — the expression is added unless some element already
present is `defeq` to it (section 4.2: "a set keyed by `defeq`, not by
object identity"). -/
def add_to (x : Expression) (s : List Expression) : List Expression :=
  if s.any (fun y => defeq x y) then s else s ++ [x]

/-- Insert every element of `subs` into `acc` through `add_to` (the inner
loop of `Max.simp`/`Min.simp` over the operands of a flattened nested
node). -/
def addAllTo (subs acc : List Expression) : List Expression :=
  subs.foldl (fun acc2 subOp => add_to subOp acc2) acc

/-- One loop iteration of `Max.simp` over an already-normalized operand:
a nested `Max` has its operands inserted one by one, anything else is
inserted itself. -/
def maxStep (acc : List Expression) (op : Expression) : List Expression :=
  match op with
  | .Max subs => addAllTo subs acc
  | _ => add_to op acc

/-- One loop iteration of `Min.simp` (same shape as `maxStep`, flattening
nested `Min`). -/
def minStep (acc : List Expression) (op : Expression) : List Expression :=
  match op with
  | .Min subs => addAllTo subs acc
  | _ => add_to op acc

/-- The operand collection built by `Max.simp` from its already-normalized
operands: nested `Max` results are flattened into the parent and every
element is inserted through `add_to` (deduplication by `defeq`). -/
def gatherMaxOps (ops : List Expression) : List Expression :=
  ops.foldl maxStep []

/-- The operand collection built by `Min.simp` from its already-normalized
operands. -/
def gatherMinOps (ops : List Expression) : List Expression :=
  ops.foldl minStep []

/-- One loop iteration of the first phase of `Mul.simp` over an
already-normalized factor: a nested `Mul` is inlined, a `Constant` is
dropped, anything else is kept. -/
def mulStep (acc : List Expression) (f : Expression) : List Expression :=
  match f with
  | .Mul subs => acc ++ subs
  | .Constant _ => acc
  | _ => acc ++ [f]

/-- First phase of `Mul.simp` over already-normalized factors: inline the
factors of nested `Mul`s, drop factors that are a `Constant`, keep the
rest. -/
def mulFlatten (factors : List Expression) : List Expression :=
  factors.foldl mulStep []

/-- One step of the exponent-gathering dictionary of `Mul.simp`: if some
already-seen base is `defeq` to `b` (first match, insertion order kept, the
stored base kept as representative) add `e` to its exponent, otherwise
append the new `(b, e)` entry. -/
def addTerm : List (Expression × Rat) → Expression → Rat → List (Expression × Rat)
  | [], b, e => [(b, e)]
  | p :: rest, b, e =>
    if defeq b p.1 then (p.1, fracAdd p.2 e) :: rest
    else p :: addTerm rest b e

/-- One loop iteration of the exponent gathering: a `Power` factor
contributes its base and exponent, any other factor contributes itself
with exponent 1. -/
def gatherStep (terms : List (Expression × Rat)) (f : Expression) : List (Expression × Rat) :=
  match f with
  | .Power b e => addTerm terms b e
  | _ => addTerm terms f 1

/-- Second phase of `Mul.simp`: gather the flattened factors into
(base, exponent) pairs. -/
def gatherTerms (factors : List Expression) : List (Expression × Rat) :=
  factors.foldl gatherStep []

/-- The normalization engine `simp`, one branch per variant exactly as in
`expressions.py` (the `hypotheses` argument of the source is threaded
through unused there and omitted here).  `fuel` bounds the recursion depth:
the source recursion is not structural (`Add`, `Div`, `Mul` and `Power`
recurse on freshly built nodes), so each recursive call of the source costs
one unit here, and out of fuel the expression is returned unchanged.  Every
concrete evaluation below uses an amply sufficient bound, and the general
theorems hold for every bound.
Branches:
* `Variable` (base class of the missing `type.py`, per spec): itself.
* `Constant`: `Constant(1)`.
* `Max`/`Min`: normalize operands, flatten nested `Max`/`Min` and
  deduplicate (`gatherMaxOps`/`gatherMinOps`); a single remaining operand
  is returned directly, otherwise the node is rebuilt.  (The source asserts
  the collection is non-empty; the model returns the rebuilt node in that
  impossible case, and the non-emptiness is proved below.)
* `Add`: rewrite as the `Max` of the summands and normalize that.
* `Mul`: flatten and drop constants, gather exponents by `defeq` of bases,
  normalize each regrouped `Power` and drop `Constant` monomials, and
  rebuild a `Mul` of what remains (the source always rebuilds a `Mul`,
  even for zero or one remaining factor).
* `Div`: rewrite as `numerator * denominator^(-1)` — through the
  flattening `*` operator of the source, which inlines the factors of a
  `Mul` numerator — and normalize that.
* `Power`: normalize the base; exponent 1 gives the base; exponent 0 or a
  `Constant` base gives `Constant(1)`; a `Power` base multiplies exponents
  (returned without further normalization, as in the source); a `Mul` base
  distributes the exponent and normalizes; otherwise rebuild. -/
def simp : Nat → Expression → Expression
  | 0, e => e
  | fuel + 1, e =>
    match e with
    | .Variable n => .Variable n
    | .Constant _ => .Constant 1
    | .Max ops =>
      match gatherMaxOps (ops.map (fun o => simp fuel o)) with
      | [x] => x
      | l => .Max l
    | .Min ops =>
      match gatherMinOps (ops.map (fun o => simp fuel o)) with
      | [x] => x
      | l => .Min l
    | .Add summands => simp fuel (.Max summands)
    | .Mul factors =>
      .Mul (((gatherTerms (mulFlatten (factors.map (fun f => simp fuel f)))).map
        (fun t => simp fuel (.Power t.1 t.2))).filter
          (fun m => match m with | .Constant _ => false | _ => true))
    | .Div n d =>
      simp fuel (.Mul ((match n with | .Mul fs => fs | n0 => [n0]) ++ [.Power d (-1)]))
    | .Power b e =>
      let base := simp fuel b
      if e = 1 then base
      else if e = 0 then .Constant 1
      else
        match base with
        | .Constant _ => .Constant 1
        | .Power b2 e2 => .Power b2 (fracMul e2 e)
        | .Mul fs => simp fuel (.Mul (fs.map (fun f => .Power f e)))
        | _ => .Power base e

example : simp 10 (.Constant 5) = .Constant 1 := rfl
example : simp 10 (.Variable "x") = .Variable "x" := rfl
example : simp 10 (.Div (.Variable "x") (.Variable "x")) = .Mul [] := rfl
example : simp 10 (.Mul [.Variable "x", .Variable "x"]) = .Mul [.Power (.Variable "x") 2] := rfl
example : simp 10 (.Power (.Power (.Variable "x") 2) (mkRat 1 2)) = .Power (.Variable "x") 1 := rfl
example : simp 10 (simp 10 (.Power (.Power (.Variable "x") 2) (mkRat 1 2))) = .Variable "x" := rfl
example : simp 10 (.Add [.Variable "x", .Variable "x", .Variable "y"])
    = .Max [.Variable "x", .Variable "y"] := rfl
example : simp 10 (.Max [.Max [.Variable "x", .Variable "y"], .Variable "x"])
    = .Max [.Variable "x", .Variable "y"] := rfl

end Expression

/-- The five relation operators of `estimates.py`, as a closed variant
type: `lesssim` is `<~` (X = O(Y)), `ll` is `<<` (X = o(Y)), `asymp` is
`~`, `gtrsim` is `>~`, `gg` is `>>`.  The source stores them as strings and
asserts membership in this set at construction. -/
inductive EstimateOp : Type where
  | lesssim
  | ll
  | asymp
  | gtrsim
  | gg
deriving DecidableEq, Repr

/-- An `Estimate`: a comparison `left operator right` of two expressions
(`estimates.py`). -/
structure Estimate : Type where
  left : Expression
  operator : EstimateOp
  right : Expression

/-- Modelled from the spec: the boolean-statement framework of the missing
`statements.py` (section 6), of which `Estimate` is an implementation and
which supplies the `Bool`, `And` and `Or` statement constructors used by
`Estimate.simp` and `LP_property`.  Here it is the free algebra over those
constructors: an estimate, a boolean constant, a conjunction or a
disjunction of a list of statements. -/
inductive Statement : Type where
  | estimate (e : Estimate)
  | bool (b : Bool)
  | and (conjuncts : List Statement)
  | or (disjuncts : List Statement)

namespace Estimate

/-- The tail of `Estimate.simp` reached once the operator is `>~`, `>>` or
`~`: normalize the ratio `left / right`, compare it to `Constant(1)` by
`defeq`, and return the boolean constant (true exactly for the operators in
`{<~, >~, ~}`, as the source spells the membership test) or the canonical
estimate `ratio operator Constant(1)`. -/
def simpCore (fuel : Nat) (e : Estimate) : Statement :=
  let left := Expression.simp fuel (.Div e.left e.right)
  let right := Expression.Constant 1
  if Expression.defeq left right then
    .bool (match e.operator with | .lesssim | .gtrsim | .asymp => true | _ => false)
  else
    .estimate ⟨left, e.operator, right⟩

/-- `Estimate.simp`: a `<~` estimate is reversed to `>~` and a `<<`
estimate to `>>` (the recursive call of the source then lands in the
non-reversing branch, `simpCore`). -/
def simp (fuel : Nat) (e : Estimate) : Statement :=
  match e.operator with
  | .lesssim => simpCore fuel ⟨e.right, .gtrsim, e.left⟩
  | .ll => simpCore fuel ⟨e.right, .gg, e.left⟩
  | _ => simpCore fuel e

end Estimate

/-- `itertools.combinations(args, 2)` in list order: all pairs `(x, y)`
with `x` before `y` in the input. -/
def combinations2 {α : Type} : List α → List (α × α)
  | [] => []
  | x :: xs => xs.map (fun y => (x, y)) ++ combinations2 xs

/-- The spec's error taxonomy entry for a Littlewood–Paley builder invoked
with fewer than two magnitudes (an `assert` in `LP_property`, a
`ValueError` in `LittlewoodPaley.__new__`). -/
inductive LPError : Type where
  | insufficientArguments
deriving DecidableEq, Repr

/-- `LP_property(*args)` of `estimates.py`: at least two magnitudes are
required; for every pair from `itertools.combinations(args, 2)` the
conjunction of `expr1 ~ expr2` with `other <= expr1` for every argument
`defeq`-distinct from both is formed, and the disjunction of those
conjunctions returned.  The source collects conjuncts in a Python set
seeded with the `~` estimate; the model keeps them as a list with the `~`
estimate first, followed by the `<~` estimates in argument order (all these
objects are distinct, so the set never merges them). -/
def LP_property (args : List Expression) : Except LPError Statement :=
  if args.length ≤ 1 then .error .insufficientArguments
  else
    .ok (.or ((combinations2 args).map (fun p =>
      .and (.estimate ⟨p.1, .asymp, p.2⟩ ::
        (args.filter
          (fun o => !(Expression.defeq o p.1) && !(Expression.defeq o p.2))).map
            (fun o => .estimate ⟨o, .lesssim, p.1⟩)))))

/-- The result of the sympy-side builder `LittlewoodPaley.__new__`
(`littlewood_paley.py`).  Modelled from the spec where the collaborators
are missing from the sources: `asymp` (from the absent
`order_of_magnitude.py`) builds the plain `~` asymptotic-equivalence
relation between two magnitudes, kept here as the `asympRel` constructor;
the general `n ≥ 3` construction wraps each argument in `Theta` (also
absent) and builds a sympy relation object, kept abstractly as the
`lpGeneral` constructor retaining the argument list. -/
inductive LPResult : Type where
  | asympRel (a b : Expression)
  | lpGeneral (args : List Expression)

/-- `LittlewoodPaley.__new__`: fewer than two arguments raise; exactly two
arguments short-circuit to the plain asymptotic equivalence `asymp(a, b)`;
otherwise the general relation object is built. -/
def LittlewoodPaley : List Expression → Except LPError LPResult
  | [] => .error .insufficientArguments
  | [_] => .error .insufficientArguments
  | [a, b] => .ok (.asympRel a b)
  | args => .ok (.lpGeneral args)

example : Estimate.simp 10 ⟨.Variable "x", .gtrsim, .Variable "x"⟩
    = .estimate ⟨.Mul [], .gtrsim, .Constant 1⟩ := rfl
example : Estimate.simp 10 ⟨.Variable "x", .gg, .Variable "x"⟩
    = .estimate ⟨.Mul [], .gg, .Constant 1⟩ := rfl
example : Estimate.simp 10 ⟨.Variable "x", .lesssim, .Variable "y"⟩
    = .estimate ⟨.Mul [.Variable "y", .Power (.Variable "x") (-1)], .gtrsim, .Constant 1⟩ := rfl

/-- Spec-side description of `Estimate.simp`, following the protocol of
section 4.4 of the spec with the operator set of the canonical form
amended from {≲,≳,~} to the set {≳,≫,~} actually produced by the reversal
bookkeeping: reverse `<~` to `>~` and `<<` to `>>`; then compute the
normalized ratio of the (possibly swapped) sides; if it is `defeq` to
`Constant(1)` the estimate is unconditionally true for the `≳`/`~`-type
operators and false for the strict `≫`, otherwise the canonical estimate
`(ratio, operator, Constant(1))` is returned. -/
def estimateSimpSpec (fuel : Nat) (e : Estimate) : Statement :=
  let c : Estimate :=
    match e.operator with
    | .lesssim => ⟨e.right, .gtrsim, e.left⟩
    | .ll => ⟨e.right, .gg, e.left⟩
    | _ => e
  let ratio := Expression.simp fuel (.Div c.left c.right)
  if Expression.defeq ratio (.Constant 1) then .bool (decide (c.operator ≠ .gg))
  else .estimate ⟨ratio, c.operator, .Constant 1⟩

/-- C1 (code_bug): normalization is *not* idempotent.  At the input
`Power(Power(x, 2), 1/2)` a single `simp` takes the nested-power branch of
`Power.simp`, which multiplies exponents and returns `Power(x, 1)` without
re-normalizing (every comparable branch of the source re-normalizes); a
second `simp` collapses the exponent 1, so `simp(simp(e))` is the variable
`x` itself and is not `defeq` to `simp(e)`, contradicting the idempotence
contract `simp(simp(e)) defeq simp(e)` of the spec. -/
theorem simp_not_idempotent_at_nested_power :
    Expression.simp 10 (.Power (.Power (.Variable "x") 2) (mkRat 1 2))
        = .Power (.Variable "x") 1
    ∧ Expression.simp 10
        (Expression.simp 10 (.Power (.Power (.Variable "x") 2) (mkRat 1 2)))
        = .Variable "x"
    ∧ Expression.defeq
        (Expression.simp 10
          (Expression.simp 10 (.Power (.Power (.Variable "x") 2) (mkRat 1 2))))
        (Expression.simp 10 (.Power (.Power (.Variable "x") 2) (mkRat 1 2)))
        = false :=
  ⟨rfl, rfl, rfl⟩

/-- C2 (code_bug): `simp(a >~ a)` does not evaluate to the boolean true
(nor `simp(a >> a)` to false) — for `a = x` a variable, the normalized
ratio `simp(x / x)` is the *empty `Mul`* (the source's `Mul.simp` always
rebuilds a `Mul`, never collapsing the empty product to `Constant(1)`),
which is not `defeq` to `Constant(1)`; the boolean branch of
`Estimate.simp` is therefore never reached and a non-boolean estimate is
returned. -/
theorem estimate_self_comparison_not_boolean :
    Estimate.simp 10 ⟨.Variable "x", .gtrsim, .Variable "x"⟩
        = .estimate ⟨.Mul [], .gtrsim, .Constant 1⟩
    ∧ Estimate.simp 10 ⟨.Variable "x", .gg, .Variable "x"⟩
        = .estimate ⟨.Mul [], .gg, .Constant 1⟩
    ∧ (∀ b : Bool, Statement.estimate ⟨.Mul [], .gtrsim, .Constant 1⟩ ≠ .bool b)
    ∧ (∀ b : Bool, Statement.estimate ⟨.Mul [], .gg, .Constant 1⟩ ≠ .bool b) := by
  refine ⟨rfl, rfl, ?_, ?_⟩ <;> intro b h <;> cases h

/-- C3 (code_bug): for the variable `x`, `simp(x / x)` is the empty `Mul`,
not `Constant(1)`, and the two are not `defeq` (different variants are
never `defeq`); the self-division scenario of the spec fails on the code
because `Mul.simp` returns `Mul(*final_factors)` even when no factor
remains. -/
theorem div_self_simp_is_empty_mul :
    Expression.simp 10 (.Div (.Variable "x") (.Variable "x")) = .Mul []
    ∧ Expression.defeq (.Mul []) (.Constant 1) = false :=
  ⟨rfl, rfl⟩

/-- C4 (code_bug): for the variable `x`, `x * x` (built by the flattening
`*` operator as `Mul(x, x)`) normalizes to `Mul([Power(x, 2)])` — a
one-factor product that `Mul.simp` never unwraps — while `Power(x, 2)`
normalizes to itself; a `Mul` is never `defeq` to a `Power`, so
`simp(x * x)` and `simp(Power(x, 2))` do not normalize identically,
contradicting the exponent-gathering canonicalization property. -/
theorem mul_self_vs_square_not_defeq :
    Expression.simp 10 (.Mul [.Variable "x", .Variable "x"])
        = .Mul [.Power (.Variable "x") 2]
    ∧ Expression.simp 10 (.Power (.Variable "x") 2) = .Power (.Variable "x") 2
    ∧ Expression.defeq (.Mul [.Power (.Variable "x") 2]) (.Power (.Variable "x") 2)
        = false :=
  ⟨rfl, rfl, rfl⟩

/-- C5 (code_bug): the first power law fails when the exponents multiply
to 1: with `x` a variable, `p = 2`, `q = 1/2`, the nested-power branch of
`Power.simp` returns `Power(x, 2 * 1/2) = Power(x, 1)` without
re-normalizing, while `simp(Power(x, p*q)) = simp(Power(x, 1)) = x`; a
`Power` is never `defeq` to a `Variable`.  (The second and third laws are
not at issue; the failing input refutes the conjunction as claimed.) -/
theorem power_law_fails_at_exponent_product_one :
    Expression.simp 10 (.Power (.Power (.Variable "x") 2) (mkRat 1 2))
        = .Power (.Variable "x") 1
    ∧ Expression.simp 10 (.Power (.Variable "x") (Expression.fracMul 2 (mkRat 1 2)))
        = .Variable "x"
    ∧ Expression.defeq (.Power (.Variable "x") 1) (.Variable "x") = false :=
  ⟨rfl, rfl, rfl⟩

/-- C6 counterexample: at the concrete estimate `x >> y`, `Estimate.simp`
returns an estimate whose operator is `>>`, which is not in the claimed
canonical operator set {≲,≳,~}, and the result is not a boolean constant;
so the claim as stated fails at this input. -/
theorem estimate_simp_gg_operator_cex :
    Estimate.simp 10 ⟨.Variable "x", .gg, .Variable "y"⟩
        = .estimate ⟨.Mul [.Variable "x", .Power (.Variable "y") (-1)], .gg, .Constant 1⟩
    ∧ (∀ b : Bool,
        Statement.estimate
          ⟨.Mul [.Variable "x", .Power (.Variable "y") (-1)], .gg, .Constant 1⟩
          ≠ .bool b)
    ∧ EstimateOp.gg ≠ .lesssim ∧ EstimateOp.gg ≠ .gtrsim ∧ EstimateOp.gg ≠ .asymp := by
  refine ⟨rfl, ?_, by decide, by decide, by decide⟩
  intro b h
  cases h

/-- C6 (corrected): for every estimate and every recursion bound,
`Estimate.simp` follows the canonical protocol `estimateSimpSpec` (reversal
bookkeeping, ratio against `Constant(1)`, boolean on structural identity of
the ratio with `Constant(1)`), and its result is either a boolean constant
or an estimate whose right side is syntactically `Constant(1)` and whose
operator lies in the amended set {≳,≫,~}. -/
theorem estimate_simp_canonical_amended :
    ∀ (fuel : Nat) (e : Estimate),
      Estimate.simp fuel e = estimateSimpSpec fuel e
      ∧ ((∃ b, Estimate.simp fuel e = .bool b)
        ∨ (∃ ratio op, Estimate.simp fuel e = .estimate ⟨ratio, op, .Constant 1⟩
            ∧ (op = .gtrsim ∨ op = .gg ∨ op = .asymp))) := by
  intro fuel e
  obtain ⟨l, op, r⟩ := e
  cases op <;>
    simp only [Estimate.simp, Estimate.simpCore, estimateSimpSpec] <;>
    constructor <;>
    first
      | rfl
      | (split
         · exact Or.inl ⟨_, rfl⟩
         · exact Or.inr ⟨_, _, rfl, by simp⟩)

/-- C7: the sympy-side builder `LittlewoodPaley` called with exactly two
magnitudes short-circuits to the plain asymptotic-equivalence relation
`asymp(a, b)` between them, which is not an instance of the general
construction. -/
theorem littlewood_paley_two_args_short_circuit :
    ∀ a b : Expression,
      LittlewoodPaley [a, b] = .ok (.asympRel a b)
      ∧ ∀ l, LPResult.asympRel a b ≠ .lpGeneral l :=
  fun _ _ => ⟨rfl, fun _ h => nomatch h⟩

/-- Structural equality on variables is name equality (one unfolding of
`defeq`). -/
theorem defeq_variable (n m : String) :
    Expression.defeq (.Variable n) (.Variable m) = (n == m) := rfl

/-- C8: for three distinct variables, `LP_property` returns the disjunction
of exactly 3 disjuncts — one per unordered pair `(i, j)` in combination
order — each the conjunction of exactly 2 statements: the estimate `i ~ j`
followed by `k <~ i` for the single remaining magnitude `k`. -/
theorem LP_property_three_distinct_variables :
    ∀ a b c : String, a ≠ b → a ≠ c → b ≠ c →
      LP_property [.Variable a, .Variable b, .Variable c]
        = .ok (.or
          [.and [.estimate ⟨.Variable a, .asymp, .Variable b⟩,
                 .estimate ⟨.Variable c, .lesssim, .Variable a⟩],
           .and [.estimate ⟨.Variable a, .asymp, .Variable c⟩,
                 .estimate ⟨.Variable b, .lesssim, .Variable a⟩],
           .and [.estimate ⟨.Variable b, .asymp, .Variable c⟩,
                 .estimate ⟨.Variable a, .lesssim, .Variable b⟩]]) := by
  intro a b c hab hac hbc
  have h1 : (b == a) = false := beq_eq_false_iff_ne.mpr (Ne.symm hab)
  have h2 : (c == a) = false := beq_eq_false_iff_ne.mpr (Ne.symm hac)
  have h3 : (c == b) = false := beq_eq_false_iff_ne.mpr (Ne.symm hbc)
  have h4 : (b == c) = false := beq_eq_false_iff_ne.mpr hbc
  have h5 : (a == b) = false := beq_eq_false_iff_ne.mpr hab
  have h6 : (a == c) = false := beq_eq_false_iff_ne.mpr hac
  simp [LP_property, combinations2, defeq_variable, List.filter,
    h1, h2, h3, h4, h5, h6]

/-- Closed witness for `LP_property_three_distinct_variables` at the
variables `N1`, `N2`, `N3`. -/
theorem LP_property_three_distinct_variables_witness :
    ("N1" : String) ≠ "N2" ∧ ("N1" : String) ≠ "N3" ∧ ("N2" : String) ≠ "N3"
    ∧ LP_property [.Variable "N1", .Variable "N2", .Variable "N3"]
        = .ok (.or
          [.and [.estimate ⟨.Variable "N1", .asymp, .Variable "N2"⟩,
                 .estimate ⟨.Variable "N3", .lesssim, .Variable "N1"⟩],
           .and [.estimate ⟨.Variable "N1", .asymp, .Variable "N3"⟩,
                 .estimate ⟨.Variable "N2", .lesssim, .Variable "N1"⟩],
           .and [.estimate ⟨.Variable "N2", .asymp, .Variable "N3"⟩,
                 .estimate ⟨.Variable "N1", .lesssim, .Variable "N2"⟩]]) :=
  ⟨by decide, by decide, by decide,
    LP_property_three_distinct_variables "N1" "N2" "N3"
      (by decide) (by decide) (by decide)⟩

/-- C9: both Littlewood–Paley builders fail with `InsufficientArguments`
exactly when given fewer than two magnitudes — with 0 or 1 magnitudes they
return that error, and with 2 or more they never do. -/
theorem LP_builders_insufficient_arguments_iff :
    ∀ args : List Expression,
      (LP_property args = .error .insufficientArguments ↔ args.length < 2)
      ∧ (LittlewoodPaley args = .error .insufficientArguments ↔ args.length < 2) := by
  intro args
  refine ⟨?_, ?_⟩
  · unfold LP_property
    by_cases h : args.length ≤ 1
    · rw [if_pos h]
      exact ⟨fun _ => by omega, fun _ => rfl⟩
    · rw [if_neg h]
      refine ⟨fun hc => ?_, fun hlt => ?_⟩
      · cases hc
      · omega
  · match args with
    | [] => exact ⟨fun _ => by decide, fun _ => rfl⟩
    | [x] => exact ⟨fun _ => by show (1:Nat) < 2; decide, fun _ => rfl⟩
    | [x, y] =>
      refine ⟨fun hc => ?_, fun hlt => ?_⟩
      · cases hc
      · exact absurd hlt (by show ¬(2:Nat) < 2; decide)
    | x :: y :: z :: rest =>
      refine ⟨fun hc => ?_, fun hlt => ?_⟩
      · cases hc
      · exact absurd hlt (by simp)

namespace Expression

mutual

/-- Well-formed expressions: every `Max`, `Min` and `Add` node in the tree
has at least one operand — the invariant the source constructors enforce
with their `len(operands) > 0` assertions (a `Mul` may be empty, its
constructor asserts nothing). -/
def wf : Expression → Bool
  | .Variable _ => true
  | .Constant _ => true
  | .Max ops => !ops.isEmpty && wfList ops
  | .Min ops => !ops.isEmpty && wfList ops
  | .Add ops => !ops.isEmpty && wfList ops
  | .Mul fs => wfList fs
  | .Div n d => wf n && wf d
  | .Power b _ => wf b

/-- All expressions of a list are well-formed. -/
def wfList : List Expression → Bool
  | [] => true
  | x :: xs => wf x && wfList xs

end

theorem wfList_iff (l : List Expression) :
    wfList l = true ↔ ∀ x ∈ l, wf x = true := by
  induction l with
  | nil => simp [wfList]
  | cons x xs ih => simp [wfList, Bool.and_eq_true, ih]

theorem add_to_ne_nil (x : Expression) (s : List Expression) : add_to x s ≠ [] := by
  unfold add_to
  split
  · next h =>
      intro hs
      subst hs
      simp at h
  · simp

theorem mem_add_to {y x : Expression} {s : List Expression}
    (h : y ∈ add_to x s) : y ∈ s ∨ y = x := by
  unfold add_to at h
  split at h
  · exact Or.inl h
  · rcases List.mem_append.mp h with h | h
    · exact Or.inl h
    · exact Or.inr (List.mem_singleton.mp h)

theorem foldl_ne_nil_of_step (f : List Expression → Expression → List Expression)
    (hf : ∀ acc x, acc ≠ [] → f acc x ≠ []) :
    ∀ (l acc : List Expression), acc ≠ [] → List.foldl f acc l ≠ [] := by
  intro l
  induction l with
  | nil => intro acc h; simpa using h
  | cons x xs ih =>
      intro acc h
      rw [List.foldl_cons]
      exact ih (f acc x) (hf acc x h)

theorem addAllTo_ne_nil (subs acc : List Expression) (h : acc ≠ [] ∨ subs ≠ []) :
    addAllTo subs acc ≠ [] := by
  unfold addAllTo
  rcases h with h | h
  · exact foldl_ne_nil_of_step _ (fun a x _ => add_to_ne_nil x a) subs acc h
  · cases subs with
    | nil => exact absurd rfl h
    | cons s ss =>
        rw [List.foldl_cons]
        exact foldl_ne_nil_of_step _ (fun a x _ => add_to_ne_nil x a) ss _
          (add_to_ne_nil s acc)

theorem maxStep_ne_nil_of_acc (acc : List Expression) (x : Expression)
    (h : acc ≠ []) : maxStep acc x ≠ [] := by
  unfold maxStep
  split
  · exact addAllTo_ne_nil _ _ (Or.inl h)
  · exact add_to_ne_nil _ _

theorem minStep_ne_nil_of_acc (acc : List Expression) (x : Expression)
    (h : acc ≠ []) : minStep acc x ≠ [] := by
  unfold minStep
  split
  · exact addAllTo_ne_nil _ _ (Or.inl h)
  · exact add_to_ne_nil _ _

theorem gatherMaxOps_ne_nil (l : List Expression) (h1 : l ≠ [])
    (h2 : ∀ x ∈ l, ∀ s, x = .Max s → s ≠ []) :
    gatherMaxOps l ≠ [] := by
  cases l with
  | nil => exact absurd rfl h1
  | cons o rest =>
      unfold gatherMaxOps
      rw [List.foldl_cons]
      refine foldl_ne_nil_of_step _ maxStep_ne_nil_of_acc rest _ ?_
      cases o with
      | Max subs =>
          exact addAllTo_ne_nil _ _ (Or.inr (h2 (.Max subs) (by simp) subs rfl))
      | Variable n => exact add_to_ne_nil _ _
      | Constant v => exact add_to_ne_nil _ _
      | Min subs => exact add_to_ne_nil _ _
      | Add subs => exact add_to_ne_nil _ _
      | Mul subs => exact add_to_ne_nil _ _
      | Div a b => exact add_to_ne_nil _ _
      | Power b e => exact add_to_ne_nil _ _

theorem gatherMinOps_ne_nil (l : List Expression) (h1 : l ≠ [])
    (h2 : ∀ x ∈ l, ∀ s, x = .Min s → s ≠ []) :
    gatherMinOps l ≠ [] := by
  cases l with
  | nil => exact absurd rfl h1
  | cons o rest =>
      unfold gatherMinOps
      rw [List.foldl_cons]
      refine foldl_ne_nil_of_step _ minStep_ne_nil_of_acc rest _ ?_
      cases o with
      | Min subs =>
          exact addAllTo_ne_nil _ _ (Or.inr (h2 (.Min subs) (by simp) subs rfl))
      | Variable n => exact add_to_ne_nil _ _
      | Constant v => exact add_to_ne_nil _ _
      | Max subs => exact add_to_ne_nil _ _
      | Add subs => exact add_to_ne_nil _ _
      | Mul subs => exact add_to_ne_nil _ _
      | Div a b => exact add_to_ne_nil _ _
      | Power b e => exact add_to_ne_nil _ _

theorem mem_addAllTo {y : Expression} :
    ∀ (subs acc : List Expression), y ∈ addAllTo subs acc → y ∈ acc ∨ y ∈ subs := by
  intro subs
  induction subs with
  | nil => intro acc h; exact Or.inl h
  | cons s ss ih =>
      intro acc h
      unfold addAllTo at h
      rw [List.foldl_cons] at h
      rcases ih (add_to s acc) h with h1 | h1
      · rcases mem_add_to h1 with h2 | h2
        · exact Or.inl h2
        · exact Or.inr (by simp [h2])
      · exact Or.inr (by simp [h1])

theorem mem_foldl_maxStep {y : Expression} :
    ∀ (l acc : List Expression),
      y ∈ List.foldl maxStep acc l →
      y ∈ acc ∨ y ∈ l ∨ ∃ s, Expression.Max s ∈ l ∧ y ∈ s := by
  intro l
  induction l with
  | nil => intro acc h; exact Or.inl h
  | cons o rest ih =>
      intro acc h
      rw [List.foldl_cons] at h
      rcases ih (maxStep acc o) h with h1 | h1 | ⟨s, hs, hys⟩
      · cases o with
        | Max subs =>
            rcases mem_addAllTo _ _ h1 with h2 | h2
            · exact Or.inl h2
            · exact Or.inr (Or.inr ⟨subs, by simp, h2⟩)
        | Variable n => rcases mem_add_to h1 with h2 | h2
                        · exact Or.inl h2
                        · exact Or.inr (Or.inl (by simp [h2]))
        | Constant v => rcases mem_add_to h1 with h2 | h2
                        · exact Or.inl h2
                        · exact Or.inr (Or.inl (by simp [h2]))
        | Min subs => rcases mem_add_to h1 with h2 | h2
                      · exact Or.inl h2
                      · exact Or.inr (Or.inl (by simp [h2]))
        | Add subs => rcases mem_add_to h1 with h2 | h2
                      · exact Or.inl h2
                      · exact Or.inr (Or.inl (by simp [h2]))
        | Mul subs => rcases mem_add_to h1 with h2 | h2
                      · exact Or.inl h2
                      · exact Or.inr (Or.inl (by simp [h2]))
        | Div a d => rcases mem_add_to h1 with h2 | h2
                     · exact Or.inl h2
                     · exact Or.inr (Or.inl (by simp [h2]))
        | Power bb ee => rcases mem_add_to h1 with h2 | h2
                         · exact Or.inl h2
                         · exact Or.inr (Or.inl (by simp [h2]))
      · exact Or.inr (Or.inl (by simp [h1]))
      · exact Or.inr (Or.inr ⟨s, by simp [hs], hys⟩)

theorem mem_foldl_minStep {y : Expression} :
    ∀ (l acc : List Expression),
      y ∈ List.foldl minStep acc l →
      y ∈ acc ∨ y ∈ l ∨ ∃ s, Expression.Min s ∈ l ∧ y ∈ s := by
  intro l
  induction l with
  | nil => intro acc h; exact Or.inl h
  | cons o rest ih =>
      intro acc h
      rw [List.foldl_cons] at h
      rcases ih (minStep acc o) h with h1 | h1 | ⟨s, hs, hys⟩
      · cases o with
        | Min subs =>
            rcases mem_addAllTo _ _ h1 with h2 | h2
            · exact Or.inl h2
            · exact Or.inr (Or.inr ⟨subs, by simp, h2⟩)
        | Variable n => rcases mem_add_to h1 with h2 | h2
                        · exact Or.inl h2
                        · exact Or.inr (Or.inl (by simp [h2]))
        | Constant v => rcases mem_add_to h1 with h2 | h2
                        · exact Or.inl h2
                        · exact Or.inr (Or.inl (by simp [h2]))
        | Max subs => rcases mem_add_to h1 with h2 | h2
                      · exact Or.inl h2
                      · exact Or.inr (Or.inl (by simp [h2]))
        | Add subs => rcases mem_add_to h1 with h2 | h2
                      · exact Or.inl h2
                      · exact Or.inr (Or.inl (by simp [h2]))
        | Mul subs => rcases mem_add_to h1 with h2 | h2
                      · exact Or.inl h2
                      · exact Or.inr (Or.inl (by simp [h2]))
        | Div a d => rcases mem_add_to h1 with h2 | h2
                     · exact Or.inl h2
                     · exact Or.inr (Or.inl (by simp [h2]))
        | Power bb ee => rcases mem_add_to h1 with h2 | h2
                         · exact Or.inl h2
                         · exact Or.inr (Or.inl (by simp [h2]))
      · exact Or.inr (Or.inl (by simp [h1]))
      · exact Or.inr (Or.inr ⟨s, by simp [hs], hys⟩)

theorem mem_foldl_mulStep {y : Expression} :
    ∀ (l acc : List Expression),
      y ∈ List.foldl mulStep acc l →
      y ∈ acc ∨ y ∈ l ∨ ∃ s, Expression.Mul s ∈ l ∧ y ∈ s := by
  intro l
  induction l with
  | nil => intro acc h; exact Or.inl h
  | cons o rest ih =>
      intro acc h
      rw [List.foldl_cons] at h
      rcases ih (mulStep acc o) h with h1 | h1 | ⟨s, hs, hys⟩
      · cases o with
        | Mul subs =>
            rcases List.mem_append.mp h1 with h2 | h2
            · exact Or.inl h2
            · exact Or.inr (Or.inr ⟨subs, by simp, h2⟩)
        | Constant v => exact Or.inl h1
        | Variable n => rcases List.mem_append.mp h1 with h2 | h2
                        · exact Or.inl h2
                        · exact Or.inr (Or.inl (by simp [List.mem_singleton.mp h2]))
        | Max subs => rcases List.mem_append.mp h1 with h2 | h2
                      · exact Or.inl h2
                      · exact Or.inr (Or.inl (by simp [List.mem_singleton.mp h2]))
        | Min subs => rcases List.mem_append.mp h1 with h2 | h2
                      · exact Or.inl h2
                      · exact Or.inr (Or.inl (by simp [List.mem_singleton.mp h2]))
        | Add subs => rcases List.mem_append.mp h1 with h2 | h2
                      · exact Or.inl h2
                      · exact Or.inr (Or.inl (by simp [List.mem_singleton.mp h2]))
        | Div a d => rcases List.mem_append.mp h1 with h2 | h2
                     · exact Or.inl h2
                     · exact Or.inr (Or.inl (by simp [List.mem_singleton.mp h2]))
        | Power bb ee => rcases List.mem_append.mp h1 with h2 | h2
                         · exact Or.inl h2
                         · exact Or.inr (Or.inl (by simp [List.mem_singleton.mp h2]))
      · exact Or.inr (Or.inl (by simp [h1]))
      · exact Or.inr (Or.inr ⟨s, by simp [hs], hys⟩)

theorem addTerm_fst_wf :
    ∀ (terms : List (Expression × Rat)) (b : Expression) (e : Rat),
      (∀ p ∈ terms, wf p.1 = true) → wf b = true →
      ∀ q ∈ addTerm terms b e, wf q.1 = true := by
  intro terms
  induction terms with
  | nil =>
      intro b e _ hb q hq
      rw [addTerm] at hq
      rcases List.mem_singleton.mp hq with rfl
      exact hb
  | cons p rest ih =>
      intro b e ht hb q hq
      rw [addTerm] at hq
      split at hq
      · rcases List.mem_cons.mp hq with rfl | hq2
        · exact ht p (by simp)
        · exact ht q (by simp [hq2])
      · rcases List.mem_cons.mp hq with rfl | hq2
        · exact ht q (by simp)
        · exact ih b e (fun r hr => ht r (by simp [hr])) hb q hq2

theorem foldl_gatherStep_fst_wf :
    ∀ (l : List Expression) (terms : List (Expression × Rat)),
      (∀ p ∈ terms, wf p.1 = true) → (∀ y ∈ l, wf y = true) →
      ∀ q ∈ List.foldl gatherStep terms l, wf q.1 = true := by
  intro l
  induction l with
  | nil => intro terms ht _ q hq; exact ht q hq
  | cons f fs ih =>
      intro terms ht hl q hq
      rw [List.foldl_cons] at hq
      refine ih (gatherStep terms f) ?_ (fun y hy => hl y (by simp [hy])) q hq
      have hf : wf f = true := hl f (by simp)
      cases f with
      | Power bb ee =>
          refine addTerm_fst_wf terms bb ee ht ?_
          rw [wf] at hf
          exact hf
      | Variable n => exact addTerm_fst_wf terms _ 1 ht hf
      | Constant v => exact addTerm_fst_wf terms _ 1 ht hf
      | Max subs => exact addTerm_fst_wf terms _ 1 ht hf
      | Min subs => exact addTerm_fst_wf terms _ 1 ht hf
      | Add subs => exact addTerm_fst_wf terms _ 1 ht hf
      | Mul subs => exact addTerm_fst_wf terms _ 1 ht hf
      | Div a d => exact addTerm_fst_wf terms _ 1 ht hf

/-- Normalization preserves well-formedness: every `Max`, `Min` and `Add`
node in a `simp` result still has at least one operand, for every recursion
bound. -/
theorem wf_simp : ∀ (fuel : Nat) (e : Expression), wf e = true → wf (simp fuel e) = true := by
  intro fuel
  induction fuel with
  | zero => intro e h; simpa [simp] using h
  | succ n ih =>
    intro e h
    cases e with
    | Variable m => simpa [simp] using h
    | Constant v => simp [simp, wf]
    | Max ops =>
        rw [wf, Bool.and_eq_true] at h
        obtain ⟨hne0, hwfl⟩ := h
        have hne : ops ≠ [] := by
          intro hnil; subst hnil; simp at hne0
        have hmap_wf : ∀ x ∈ ops.map (fun o => simp n o), wf x = true := by
          intro x hx
          rcases List.mem_map.mp hx with ⟨o, ho, rfl⟩
          exact ih o ((wfList_iff ops).mp hwfl o ho)
        have hmax_sub : ∀ x ∈ ops.map (fun o => simp n o), ∀ s, x = .Max s → s ≠ [] := by
          intro x hx s hxs
          subst hxs
          have hws := hmap_wf _ hx
          rw [wf, Bool.and_eq_true] at hws
          intro hnil; subst hnil; simp at hws
        have hne2 : gatherMaxOps (ops.map (fun o => simp n o)) ≠ [] :=
          gatherMaxOps_ne_nil _ (fun hc => hne (List.map_eq_nil_iff.mp hc)) hmax_sub
        have hall : ∀ y ∈ gatherMaxOps (ops.map (fun o => simp n o)), wf y = true := by
          intro y hy
          rcases mem_foldl_maxStep _ _ (by simpa [gatherMaxOps] using hy) with
            h0 | h0 | ⟨s, hs, hys⟩
          · simp at h0
          · exact hmap_wf y h0
          · have hws := hmap_wf _ hs
            rw [wf, Bool.and_eq_true] at hws
            exact (wfList_iff s).mp hws.2 y hys
        rcases hgl : gatherMaxOps (ops.map (fun o => simp n o)) with _ | ⟨x, rest⟩
        · exact absurd hgl hne2
        · cases rest with
          | nil =>
              simp only [simp, hgl]
              exact hall x (by rw [hgl]; simp)
          | cons x2 rest2 =>
              simp only [simp, hgl]
              rw [wf, Bool.and_eq_true]
              refine ⟨by simp, ?_⟩
              rw [wfList_iff]
              intro z hz
              exact hall z (by rw [hgl]; exact hz)
    | Min ops =>
        rw [wf, Bool.and_eq_true] at h
        obtain ⟨hne0, hwfl⟩ := h
        have hne : ops ≠ [] := by
          intro hnil; subst hnil; simp at hne0
        have hmap_wf : ∀ x ∈ ops.map (fun o => simp n o), wf x = true := by
          intro x hx
          rcases List.mem_map.mp hx with ⟨o, ho, rfl⟩
          exact ih o ((wfList_iff ops).mp hwfl o ho)
        have hmin_sub : ∀ x ∈ ops.map (fun o => simp n o), ∀ s, x = .Min s → s ≠ [] := by
          intro x hx s hxs
          subst hxs
          have hws := hmap_wf _ hx
          rw [wf, Bool.and_eq_true] at hws
          intro hnil; subst hnil; simp at hws
        have hne2 : gatherMinOps (ops.map (fun o => simp n o)) ≠ [] :=
          gatherMinOps_ne_nil _ (fun hc => hne (List.map_eq_nil_iff.mp hc)) hmin_sub
        have hall : ∀ y ∈ gatherMinOps (ops.map (fun o => simp n o)), wf y = true := by
          intro y hy
          rcases mem_foldl_minStep _ _ (by simpa [gatherMinOps] using hy) with
            h0 | h0 | ⟨s, hs, hys⟩
          · simp at h0
          · exact hmap_wf y h0
          · have hws := hmap_wf _ hs
            rw [wf, Bool.and_eq_true] at hws
            exact (wfList_iff s).mp hws.2 y hys
        rcases hgl : gatherMinOps (ops.map (fun o => simp n o)) with _ | ⟨x, rest⟩
        · exact absurd hgl hne2
        · cases rest with
          | nil =>
              simp only [simp, hgl]
              exact hall x (by rw [hgl]; simp)
          | cons x2 rest2 =>
              simp only [simp, hgl]
              rw [wf, Bool.and_eq_true]
              refine ⟨by simp, ?_⟩
              rw [wfList_iff]
              intro z hz
              exact hall z (by rw [hgl]; exact hz)
    | Add summands =>
        rw [wf] at h
        have hm : wf (.Max summands) = true := by rw [wf]; exact h
        simpa [simp] using ih _ hm
    | Mul factors =>
        rw [wf] at h
        simp only [simp]
        rw [wf, wfList_iff]
        intro m hm
        rcases List.mem_filter.mp hm with ⟨hm2, _⟩
        rcases List.mem_map.mp hm2 with ⟨⟨b, e⟩, hbe, rfl⟩
        have hmap_wf : ∀ x ∈ factors.map (fun f => simp n f), wf x = true := by
          intro x hx
          rcases List.mem_map.mp hx with ⟨o, ho, rfl⟩
          exact ih o ((wfList_iff factors).mp h o ho)
        have hflat : ∀ y ∈ mulFlatten (factors.map (fun f => simp n f)), wf y = true := by
          intro y hy
          rcases mem_foldl_mulStep _ _ (by simpa [mulFlatten] using hy) with
            h0 | h0 | ⟨s, hs, hys⟩
          · simp at h0
          · exact hmap_wf y h0
          · have hws := hmap_wf _ hs
            rw [wf] at hws
            exact (wfList_iff s).mp hws y hys
        have hb : wf b = true :=
          foldl_gatherStep_fst_wf _ [] (by simp) hflat (b, e)
            (by simpa [gatherTerms] using hbe)
        exact ih _ (by rw [wf]; exact hb)
    | Div a d =>
        rw [wf, Bool.and_eq_true] at h
        obtain ⟨ha, hd⟩ := h
        cases a with
        | Mul fs =>
            simp only [simp]
            apply ih
            rw [wf] at ha ⊢
            rw [wfList_iff] at ha ⊢
            intro y hy
            rcases List.mem_append.mp hy with h0 | h0
            · exact ha y h0
            · rcases List.mem_singleton.mp h0 with rfl
              rw [wf]
              exact hd
        | Variable nm =>
            simp only [simp]
            apply ih
            rw [wf, wfList_iff]
            intro y hy
            rcases List.mem_cons.mp hy with rfl | h0
            · exact ha
            · rcases List.mem_singleton.mp h0 with rfl
              rw [wf]; exact hd
        | Constant v =>
            simp only [simp]
            apply ih
            rw [wf, wfList_iff]
            intro y hy
            rcases List.mem_cons.mp hy with rfl | h0
            · exact ha
            · rcases List.mem_singleton.mp h0 with rfl
              rw [wf]; exact hd
        | Max ops =>
            simp only [simp]
            apply ih
            rw [wf, wfList_iff]
            intro y hy
            rcases List.mem_cons.mp hy with rfl | h0
            · exact ha
            · rcases List.mem_singleton.mp h0 with rfl
              rw [wf]; exact hd
        | Min ops =>
            simp only [simp]
            apply ih
            rw [wf, wfList_iff]
            intro y hy
            rcases List.mem_cons.mp hy with rfl | h0
            · exact ha
            · rcases List.mem_singleton.mp h0 with rfl
              rw [wf]; exact hd
        | Add ops =>
            simp only [simp]
            apply ih
            rw [wf, wfList_iff]
            intro y hy
            rcases List.mem_cons.mp hy with rfl | h0
            · exact ha
            · rcases List.mem_singleton.mp h0 with rfl
              rw [wf]; exact hd
        | Div a2 d2 =>
            simp only [simp]
            apply ih
            rw [wf, wfList_iff]
            intro y hy
            rcases List.mem_cons.mp hy with rfl | h0
            · exact ha
            · rcases List.mem_singleton.mp h0 with rfl
              rw [wf]; exact hd
        | Power b2 e2 =>
            simp only [simp]
            apply ih
            rw [wf, wfList_iff]
            intro y hy
            rcases List.mem_cons.mp hy with rfl | h0
            · exact ha
            · rcases List.mem_singleton.mp h0 with rfl
              rw [wf]; exact hd
    | Power b e2 =>
        rw [wf] at h
        have hbase := ih b h
        simp only [simp]
        split
        · exact hbase
        · split
          · simp [wf]
          · split
            · simp [wf]
            · next b2 e3 heq =>
                rw [heq] at hbase
                rw [wf] at hbase ⊢
                exact hbase
            · next fs heq =>
                rw [heq] at hbase
                rw [wf] at hbase
                apply ih
                rw [wf, wfList_iff]
                intro y hy
                rcases List.mem_map.mp hy with ⟨f, hf, rfl⟩
                rw [wf]
                exact (wfList_iff fs).mp hbase f hf
            · next hne1 hne2 hne3 =>
                rw [wf]
                exact hbase

end Expression

/-- C10: for every `Max` or `Min` constructed with at least one operand
(over well-formed operands, as the source constructors guarantee), the
reduced operand collection computed by `simp` — after normalizing each
operand, flattening nested `Max`/`Min` of the same kind and deduplicating
by structural equality — is non-empty, for every recursion bound; the
internal consistency assertion of `Max.simp`/`Min.simp` for an empty
reduced set can therefore never fire. -/
theorem max_min_simp_operands_nonempty :
    ∀ (fuel : Nat) (ops : List Expression),
      Expression.wfList ops = true → ops ≠ [] →
      Expression.gatherMaxOps (ops.map (fun o => Expression.simp fuel o)) ≠ []
      ∧ Expression.gatherMinOps (ops.map (fun o => Expression.simp fuel o)) ≠ [] := by
  intro fuel ops hwf hne
  have hmap_wf : ∀ x ∈ ops.map (fun o => Expression.simp fuel o), Expression.wf x = true := by
    intro x hx
    rcases List.mem_map.mp hx with ⟨o, ho, rfl⟩
    exact Expression.wf_simp fuel o ((Expression.wfList_iff ops).mp hwf o ho)
  have hmapne : ops.map (fun o => Expression.simp fuel o) ≠ [] :=
    fun hc => hne (List.map_eq_nil_iff.mp hc)
  refine ⟨Expression.gatherMaxOps_ne_nil _ hmapne ?_,
          Expression.gatherMinOps_ne_nil _ hmapne ?_⟩
  · intro x hx s hxs
    subst hxs
    have hws := hmap_wf _ hx
    rw [Expression.wf, Bool.and_eq_true] at hws
    intro hnil; subst hnil; simp at hws
  · intro x hx s hxs
    subst hxs
    have hws := hmap_wf _ hx
    rw [Expression.wf, Bool.and_eq_true] at hws
    intro hnil; subst hnil; simp at hws

/-- Closed witness for `max_min_simp_operands_nonempty` at the singleton
operand list `[x]` with recursion bound 5. -/
theorem max_min_simp_operands_nonempty_witness :
    Expression.wfList [Expression.Variable "x"] = true
    ∧ ([Expression.Variable "x"] : List Expression) ≠ []
    ∧ (Expression.gatherMaxOps
        ([Expression.Variable "x"].map (fun o => Expression.simp 5 o)) ≠ []
      ∧ Expression.gatherMinOps
        ([Expression.Variable "x"].map (fun o => Expression.simp 5 o)) ≠ []) :=
  ⟨rfl, by simp,
    max_min_simp_operands_nonempty 5 [Expression.Variable "x"] rfl (by simp)⟩
